import Mathlib

/-
Verification development for the CrawlForAI content-acquisition and
segmentation pipeline.

Shallow embedding of the repository's Python modules:
  * src/sitemap_chunks.py    — segmentation: chunk_by_header,
    chunk_by_paragraphs, chunk_text (the identical chunk_text also
    appears in src/main.py);
  * src/sitemap_page_per_file_recursive.py — recursive sitemap
    resolution (fetch_sitemap_urls) and dual-strategy page fetching
    (fetch_markdown).

Modelling conventions:
  * Python strings are Lean String / List Char (one element per code
    point, so Python len agrees with String.length);
  * Python whitespace (regex \s, str.strip) is modelled by the ASCII
    whitespace characters space, tab, newline, carriage return, form
    feed and vertical tab;
  * network and external-library effects (HTTP responses, XML parsing
    results of xml.etree, the headless-browser crawl, html2text) are
    inputs of the embedded functions: an environment maps a URL to the
    outcome of fetching it, a parsed XML document is given by its root
    tag together with the findall results the code inspects;
  * unbounded recursion/loops are embedded with an explicit fuel
    argument chosen large enough; termination claims are stated as
    fuel-independence of the result.
-/

/-- Python whitespace test restricted to ASCII: the characters matched by
regex \s and stripped by str.strip for the documents this pipeline
handles. -/
def pyIsSpace (c : Char) : Bool :=
  c = ' ' || c = '\t' || c = '\n' || c = '\r' || c = '\x0b' || c = '\x0c'

/-- Python str.strip on a character list: drop whitespace from both ends. -/
def pyTrim (l : List Char) : List Char :=
  ((l.dropWhile pyIsSpace).reverse.dropWhile pyIsSpace).reverse

/-- Python str.strip on strings. -/
def pyStrip (s : String) : String := ⟨pyTrim s.toList⟩

theorem pyTrim_length_le (l : List Char) : (pyTrim l).length ≤ l.length := by
  unfold pyTrim
  have h1 : (l.dropWhile pyIsSpace).length ≤ l.length :=
    (List.dropWhile_sublist _).length_le
  have h2 : ((l.dropWhile pyIsSpace).reverse.dropWhile pyIsSpace).length
      ≤ (l.dropWhile pyIsSpace).reverse.length :=
    (List.dropWhile_sublist _).length_le
  simp only [List.length_reverse] at h2 ⊢
  omega

theorem pyStrip_length_le (s : String) : (pyStrip s).length ≤ s.length :=
  pyTrim_length_le s.toList

namespace SitemapChunks

/-- Module-level chunking constants of src/sitemap_chunks.py (the same
values appear in src/main.py). -/
def MAX_CHARS : Nat := 2000

/-- Overlapping characters between fixed-window chunks. -/
def OVERLAP : Nat := 200

/-- The while-loop of chunk_text (src/sitemap_chunks.py lines 103-116,
src/main.py lines 74-84), with the module constants generalised to
parameters.  One fuel unit per loop iteration; none means the fuel ran
out (the Python loop would still be running). -/
def chunkTextAux (text : List Char) (maxChars overlap : Nat) :
    Nat → Nat → Option (List (List Char))
  | 0, _ => none
  | fuel + 1, start =>
    if start < text.length then
      let e := min (start + maxChars) text.length
      let c := (text.drop start).take (e - start)
      if e = text.length then some [c]
      else
        match chunkTextAux text maxChars overlap fuel (e - overlap) with
        | some cs => some (c :: cs)
        | none => none
    else some []

/-- chunk_text with maxChars/overlap as parameters; the fuel
text.length + 1 suffices whenever overlap < maxChars. -/
def chunk_text_gen (maxChars overlap : Nat) (text : List Char) :
    Option (List (List Char)) :=
  chunkTextAux text maxChars overlap (text.length + 1) 0

/-- chunk_text exactly as in the source, over the module constants. -/
def chunk_text (text : String) : Option (List String) :=
  (chunk_text_gen MAX_CHARS OVERLAP text.toList).map (List.map fun l => (⟨l⟩ : String))

theorem chunkTextAux_spec (text : List Char) (maxChars overlap : Nat)
    (h : overlap < maxChars) :
    ∀ fuel s, text.length - s < fuel →
      ∃ cs, chunkTextAux text maxChars overlap fuel s = some cs
        ∧ (∀ i, (hi : i < cs.length) →
            cs.get ⟨i, hi⟩ = (text.drop (s + i * (maxChars - overlap))).take maxChars)
        ∧ (s < text.length →
            cs ≠ [] ∧ text.length ≤ s + (cs.length - 1) * (maxChars - overlap) + maxChars)
        ∧ (text.length ≤ s → cs = []) := by
  intro fuel
  induction fuel with
  | zero => intro s hs; omega
  | succ fuel ih =>
    intro s hs
    by_cases hlt : s < text.length
    · by_cases he : min (s + maxChars) text.length = text.length
      · have hsle : text.length ≤ s + maxChars := by omega
        refine ⟨[text.drop s], ?_, ?_, ?_, ?_⟩
        · have harg : min (s + maxChars) text.length - s = text.length - s := by omega
          have hdrop : (text.drop s).take (text.length - s) = text.drop s := by
            apply List.take_of_length_le
            simp [List.length_drop]
          simp only [chunkTextAux, if_pos hlt, if_pos he, harg, hdrop]
        · intro i hi
          have hi0 : i = 0 := by
            simp only [List.length_singleton] at hi
            omega
          subst hi0
          have h2 : (text.drop s).take maxChars = text.drop s := by
            apply List.take_of_length_le
            simp only [List.length_drop]
            omega
          simp [h2]
        · intro _
          refine ⟨by simp, ?_⟩
          simp only [List.length_singleton]
          omega
        · intro hge; omega
      · have hsmax : s + maxChars < text.length := by omega
        have hmin : min (s + maxChars) text.length = s + maxChars := by omega
        have hrec : text.length - (s + maxChars - overlap) < fuel := by omega
        obtain ⟨cs, hcs, hget, hne, hnil⟩ := ih (s + maxChars - overlap) hrec
        refine ⟨(text.drop s).take maxChars :: cs, ?_, ?_, ?_, ?_⟩
        · simp only [chunkTextAux, if_pos hlt, if_neg he, hmin, Nat.add_sub_cancel_left, hcs]
          rw [if_neg (show ¬ s + maxChars = text.length by omega)]
        · intro i hi
          match i with
          | 0 =>
            simp only [List.get]
            congr 2
            omega
          | Nat.succ j =>
            have hj : j < cs.length := by simpa using hi
            simp only [List.get]
            rw [hget j hj]
            congr 2
            have hsm : Nat.succ j * (maxChars - overlap)
                = j * (maxChars - overlap) + (maxChars - overlap) := Nat.succ_mul _ _
            omega
        · intro _
          refine ⟨by simp, ?_⟩
          have hlt2 : s + maxChars - overlap < text.length := by omega
          obtain ⟨hcsne, hbound⟩ := hne hlt2
          obtain ⟨m, hm⟩ : ∃ m, cs.length = m + 1 := by
            cases cs with
            | nil => exact absurd rfl hcsne
            | cons a t => exact ⟨t.length, by simp⟩
          rw [hm] at hbound
          simp only [List.length_cons, hm, Nat.add_sub_cancel] at hbound ⊢
          have hsm : (m + 1) * (maxChars - overlap)
              = m * (maxChars - overlap) + (maxChars - overlap) := Nat.succ_mul _ _
          omega
        · intro hge; omega
    · refine ⟨[], ?_, ?_, ?_, ?_⟩
      · simp only [chunkTextAux, if_neg hlt]
      · intro i hi; simp at hi
      · intro hc; omega
      · intro _; rfl

/-- Claim C8: for every input text, under the precondition
overlapChars < maxChars, the fixed-window chunker chunk_text terminates
(the fuel text.length + 1 suffices), every window i covers
text[i*(maxChars-overlap) : i*(maxChars-overlap)+maxChars] — so each
window start advances by maxChars − overlap — and the last emitted chunk
ends exactly at end-of-text (it is the suffix of text from its start
offset). -/
theorem chunk_text_fixed_window (text : List Char) (maxChars overlap : Nat)
    (h : overlap < maxChars) :
    ∃ cs, chunk_text_gen maxChars overlap text = some cs
      ∧ (∀ i, (hi : i < cs.length) →
          cs.get ⟨i, hi⟩ = (text.drop (i * (maxChars - overlap))).take maxChars)
      ∧ (text = [] → cs = [])
      ∧ (text ≠ [] → cs ≠ []
          ∧ text.length ≤ (cs.length - 1) * (maxChars - overlap) + maxChars
          ∧ cs.getLast? = some (text.drop ((cs.length - 1) * (maxChars - overlap)))) := by
  obtain ⟨cs, hcs, hget, hne, hnil⟩ :=
    chunkTextAux_spec text maxChars overlap h (text.length + 1) 0 (by omega)
  refine ⟨cs, hcs, ?_, ?_, ?_⟩
  · intro i hi
    have := hget i hi
    simpa using this
  · intro htext
    apply hnil
    simp [htext]
  · intro htext
    have hlen : 0 < text.length := by
      cases text with
      | nil => exact absurd rfl htext
      | cons a t => simp
    obtain ⟨hcsne, hbound⟩ := hne hlen
    refine ⟨hcsne, by omega, ?_⟩
    have hlast : cs.getLast? = some (cs.get ⟨cs.length - 1, by
        cases cs with
        | nil => exact absurd rfl hcsne
        | cons a t => simp⟩) := by
      cases cs with
      | nil => exact absurd rfl hcsne
      | cons a t =>
        rw [List.getLast?_eq_getLast (a :: t) (by simp)]
        congr 1
        exact List.getLast_eq_get (a :: t) (by simp)
    rw [hlast]
    congr 1
    have := hget (cs.length - 1) (by
      cases cs with
      | nil => exact absurd rfl hcsne
      | cons a t => simp)
    rw [this]
    simp only [Nat.zero_add]
    apply List.take_of_length_le
    have := List.length_drop ((cs.length - 1) * (maxChars - overlap)) text
    omega

/-- Witness for chunk_text_fixed_window: maxChars 5, overlap 2 on the
8-character text abcdefgh (windows [0,5) and [3,8)). -/
theorem chunk_text_fixed_window_witness :
    2 < 5 ∧
    ∃ cs, chunk_text_gen 5 2 "abcdefgh".toList = some cs
      ∧ (∀ i, (hi : i < cs.length) →
          cs.get ⟨i, hi⟩ = ("abcdefgh".toList.drop (i * (5 - 2))).take 5)
      ∧ ("abcdefgh".toList = [] → cs = [])
      ∧ ("abcdefgh".toList ≠ [] → cs ≠ []
          ∧ "abcdefgh".toList.length ≤ (cs.length - 1) * (5 - 2) + 5
          ∧ cs.getLast? = some ("abcdefgh".toList.drop ((cs.length - 1) * (5 - 2)))) :=
  ⟨by decide, chunk_text_fixed_window "abcdefgh".toList 5 2 (by decide)⟩

/-- Index of the last newline inside a character list, if any. -/
def lastNewlineIdx (l : List Char) : Option Nat :=
  match l.reverse.findIdx? (fun c => c = '\n') with
  | some i => some (l.length - 1 - i)
  | none => none

/-- Python re.split(r'\n\s*\n', s): scan left to right; a separator match
starts at a newline and, with the greedy \s*, extends to the last newline
of the maximal whitespace run that follows.  acc holds the characters of
the current piece in reverse; one fuel unit per consumed character
(length + 1 is always enough). -/
def splitParasAux : Nat → List Char → List Char → List (List Char)
  | 0, _, acc => [acc.reverse]
  | _ + 1, [], acc => [acc.reverse]
  | fuel + 1, c :: rest, acc =>
    if c = '\n' then
      match lastNewlineIdx (rest.takeWhile pyIsSpace) with
      | some j => acc.reverse :: splitParasAux fuel (rest.drop (j + 1)) []
      | none => splitParasAux fuel rest (c :: acc)
    else splitParasAux fuel rest (c :: acc)

/-- The paragraphs of a section: re.split(r'\n\s*\n', section.strip())
(src/sitemap_chunks.py line 155). -/
def splitParagraphs (s : String) : List String :=
  (splitParasAux (s.toList.length + 1) s.toList []).map (fun l => (⟨l⟩ : String))

/-- Python "\n\n".join. -/
def joinParas : List String → String
  | [] => ""
  | [p] => p
  | p :: ps => p ++ "\n\n" ++ joinParas ps

/-- sum(len(x) + 2 for x in curr) (src/sitemap_chunks.py line 167). -/
def sumLen (l : List String) : Nat := (l.map (fun x => x.length + 2)).sum

/-- Python curr[-k:]: the whole list when k = 0 (negative zero is zero, so
curr[-0:] is curr[0:]), otherwise the last min(k, length) elements. -/
def pySliceLast (k : Nat) (l : List String) : List String :=
  if k = 0 then l else l.drop (l.length - k)

/-- One iteration of the paragraph-packing loop of chunk_by_paragraphs
(src/sitemap_chunks.py lines 160-169).  State: (chunks, curr, curr_len). -/
def paraStep (maxChars k : Nat) (st : List String × List String × Nat)
    (p : String) : List String × List String × Nat :=
  let plen := p.length + 2
  if st.2.2 + plen > maxChars ∧ st.2.1 ≠ [] then
    let seed := pySliceLast k st.2.1
    (st.1 ++ [pyStrip (joinParas st.2.1)], seed ++ [p], sumLen seed + plen)
  else (st.1, st.2.1 ++ [p], st.2.2 + plen)

/-- chunk_by_paragraphs (src/sitemap_chunks.py lines 146-173); the Python
parameter name section is a Lean keyword, hence sect. -/
def chunk_by_paragraphs (sect : String) (maxChars k : Nat) : List String :=
  let paras := splitParagraphs (pyStrip sect)
  let st := paras.foldl (paraStep maxChars k) ([], [], 0)
  if st.2.1 ≠ [] then st.1 ++ [pyStrip (joinParas st.2.1)] else st.1

/-- Claim C1, evaluation at the failing input: with maxChars = 10 and
overlapParagraphs = 1, the section aaaaa\n\nbbbbb\n\nccccc has three
paragraphs of length 5 ≤ 10, yet chunk_by_paragraphs emits the chunk
aaaaa\n\nbbbbb of length 12 > 10 consisting of two paragraphs: after a
flush the overlap seed plus the new paragraph is appended without
re-checking the bound, so the claimed invariant fails on chunks that are
not a single oversized paragraph. -/
theorem chunk_by_paragraphs_bound_violation :
    chunk_by_paragraphs "aaaaa\n\nbbbbb\n\nccccc" 10 1
      = ["aaaaa", "aaaaa\n\nbbbbb", "bbbbb\n\nccccc"]
    ∧ (splitParagraphs (pyStrip "aaaaa\n\nbbbbb\n\nccccc")).all
        (fun p => p.length ≤ 10) = true
    ∧ ("aaaaa\n\nbbbbb" : String).length = 12
    ∧ (splitParagraphs "aaaaa\n\nbbbbb").length = 2 := by
  refine ⟨?_, ?_, ?_, ?_⟩ <;> decide

/-- Claim C3, counterexample: with overlapParagraphs = 0 the claim
predicts no carry-over, but Python curr[-0:] is the whole list, so after
flushing aaaaa the next accumulator still contains aaaaa and every later
chunk repeats all earlier paragraphs. -/
theorem chunk_by_paragraphs_zero_overlap_carryover :
    chunk_by_paragraphs "aaaaa\n\nbbbbb\n\nccccc" 10 0
      = ["aaaaa", "aaaaa\n\nbbbbb", "aaaaa\n\nbbbbb\n\nccccc"]
    ∧ pySliceLast 0 ["aaaaa"] = ["aaaaa"] := by
  refine ⟨?_, ?_⟩ <;> decide

/-- Claim C3 (amended): whenever chunk_by_paragraphs flushes a full
accumulator, the next accumulator is seeded with curr[-k:] and then the
new paragraph is appended; for k ≥ 1 the seed is the last min(k, length)
paragraphs of the just-flushed accumulator and forms the first k
paragraphs of the next accumulator, but for k = 0 the seed is the entire
just-flushed accumulator, not the empty list. -/
theorem paraStep_overlap_seed (maxChars k : Nat) (chunks curr : List String)
    (len : Nat) (p : String)
    (hflush : len + (p.length + 2) > maxChars) (hne : curr ≠ []) :
    paraStep maxChars k (chunks, curr, len) p
      = (chunks ++ [pyStrip (joinParas curr)],
         pySliceLast k curr ++ [p],
         sumLen (pySliceLast k curr) + (p.length + 2))
    ∧ (1 ≤ k → pySliceLast k curr = curr.drop (curr.length - k))
    ∧ pySliceLast 0 curr = curr
    ∧ (1 ≤ k → k ≤ curr.length →
        (pySliceLast k curr ++ [p]).take k = curr.drop (curr.length - k)) := by
  refine ⟨?_, ?_, ?_, ?_⟩
  · simp [paraStep, hflush, hne]
  · intro hk
    rw [pySliceLast, if_neg (by omega)]
  · simp [pySliceLast]
  · intro hk hkle
    rw [pySliceLast, if_neg (by omega)]
    have hlen : (curr.drop (curr.length - k)).length = k := by
      rw [List.length_drop]; omega
    have htake := List.take_left (curr.drop (curr.length - k)) [p]
    rw [hlen] at htake
    exact htake

/-- Witness for paraStep_overlap_seed at maxChars 10, k 1, accumulator
[aaaaa] of length 7, incoming paragraph bbbbb. -/
theorem paraStep_overlap_seed_witness :
    (7 + (("bbbbb" : String).length + 2) > 10 ∧ (["aaaaa"] : List String) ≠ []) ∧
    (paraStep 10 1 ([], ["aaaaa"], 7) "bbbbb"
        = ([pyStrip (joinParas ["aaaaa"])],
           pySliceLast 1 ["aaaaa"] ++ ["bbbbb"],
           sumLen (pySliceLast 1 ["aaaaa"]) + (("bbbbb" : String).length + 2))
      ∧ (1 ≤ 1 → pySliceLast 1 ["aaaaa"]
          = (["aaaaa"] : List String).drop ((["aaaaa"] : List String).length - 1))
      ∧ pySliceLast 0 ["aaaaa"] = ["aaaaa"]
      ∧ (1 ≤ 1 → 1 ≤ (["aaaaa"] : List String).length →
          (pySliceLast 1 ["aaaaa"] ++ ["bbbbb"]).take 1
            = (["aaaaa"] : List String).drop ((["aaaaa"] : List String).length - 1))) :=
  ⟨⟨by decide, by decide⟩,
   paraStep_overlap_seed 10 1 [] ["aaaaa"] 7 "bbbbb" (by decide) (by decide)⟩

/-- Character offsets of line starts strictly after position pos:
pos + i + 1 for every newline at relative index i. -/
def lineStartsFrom : List Char → Nat → List Nat
  | [], _ => []
  | c :: cs, pos =>
    if c = '\n' then (pos + 1) :: lineStartsFrom cs (pos + 1)
    else lineStartsFrom cs (pos + 1)

/-- All line-start offsets of a document: 0 plus one offset after every
newline.  These are the positions where re.MULTILINE ^ can match. -/
def lineStarts (cs : List Char) : List Nat := 0 :: lineStartsFrom cs 0

/-- A line matches the header pattern ^(# .+|## .+)$ of
src/sitemap_chunks.py line 137 iff it starts with "# " or "## " followed
by at least one character (the line itself contains no newline). -/
def isHeadingLine (l : List Char) : Bool :=
  (decide (l.take 2 = ['#', ' ']) && decide (3 ≤ l.length))
  || (decide (l.take 3 = ['#', '#', ' ']) && decide (4 ≤ l.length))

/-- Whether the line beginning at offset i matches the header pattern. -/
def isHeadingAt (cs : List Char) (i : Nat) : Bool :=
  isHeadingLine ((cs.drop i).takeWhile (fun c => c ≠ '\n'))

/-- The m.start() offsets of the header-pattern matches, in document
order (src/sitemap_chunks.py line 138). -/
def headingStarts (cs : List Char) : List Nat :=
  (lineStarts cs).filter (fun i => isHeadingAt cs i)

/-- markdown[bounds[i] : bounds[i+1]].strip() for consecutive bound
pairs. -/
def sliceBounds (cs : List Char) (bounds : List Nat) : List (List Char) :=
  (bounds.zip bounds.tail).map (fun ab => pyTrim ((cs.drop ab.1).take (ab.2 - ab.1)))

/-- chunk_by_header (src/sitemap_chunks.py lines 132-144): bounds are the
header match offsets plus end-of-document; each slice is stripped and
dropped if empty.  chunk_markdown in src/main.py is the same function. -/
def chunk_by_header (markdown : String) : List String :=
  let cs := markdown.toList
  let bounds := headingStarts cs ++ [cs.length]
  ((sliceBounds cs bounds).filter (fun l => !l.isEmpty)).map (fun l => (⟨l⟩ : String))

/-- Claim C2, counterexample: the heading-free document hello is not
returned as a single whole-document section; chunk_by_header returns the
empty list (bounds is just [len], so the loop body never runs), although
the trimmed document hello is non-empty. -/
theorem chunk_by_header_no_heading_empty :
    chunk_by_header "hello" = [] ∧ pyStrip "hello" = "hello" := by
  refine ⟨?_, ?_⟩ <;> decide

/-- Claim C2 (amended): for every document none of whose lines matches
the top-level or second-level heading pattern, chunk_by_header returns
the empty list — the whole document is discarded, not returned as a
single section. -/
theorem chunk_by_header_no_heading (md : String)
    (h : ∀ i ∈ lineStarts md.toList, isHeadingAt md.toList i = false) :
    chunk_by_header md = [] := by
  have hhs : headingStarts md.data = [] := by
    apply List.filter_eq_nil_iff.mpr
    intro a ha
    have hfalse : isHeadingAt md.data a = false := h a ha
    rw [hfalse]
    simp
  have hhs2 : headingStarts md.toList = [] := hhs
  simp [chunk_by_header, sliceBounds, hhs, hhs2]

/-- Witness for chunk_by_header_no_heading on the document hello\nworld. -/
theorem chunk_by_header_no_heading_witness :
    (∀ i ∈ lineStarts ("hello\nworld" : String).toList,
      isHeadingAt ("hello\nworld" : String).toList i = false)
    ∧ chunk_by_header "hello\nworld" = [] :=
  ⟨by decide, chunk_by_header_no_heading "hello\nworld" (by decide)⟩

theorem lsf_mem (cs : List Char) :
    ∀ pos x, x ∈ lineStartsFrom cs pos → pos < x ∧ x ≤ pos + cs.length := by
  induction cs with
  | nil => intro pos x hx; simp [lineStartsFrom] at hx
  | cons c cs ih =>
    intro pos x hx
    simp only [lineStartsFrom] at hx
    by_cases hc : c = '\n'
    · rw [if_pos hc] at hx
      rcases List.mem_cons.mp hx with h1 | h2
      · subst h1; simp only [List.length_cons]; omega
      · have := ih (pos + 1) x h2
        simp only [List.length_cons]; omega
    · rw [if_neg hc] at hx
      have := ih (pos + 1) x hx
      simp only [List.length_cons]; omega

theorem lsf_pairwise (cs : List Char) :
    ∀ pos, (lineStartsFrom cs pos).Pairwise (· < ·) := by
  induction cs with
  | nil => intro pos; simp [lineStartsFrom]
  | cons c cs ih =>
    intro pos
    simp only [lineStartsFrom]
    by_cases hc : c = '\n'
    · rw [if_pos hc]
      refine List.pairwise_cons.mpr ⟨?_, ih (pos + 1)⟩
      intro x hx
      exact (lsf_mem cs (pos + 1) x hx).1
    · rw [if_neg hc]; exact ih (pos + 1)

theorem lsf_cons (d : Char) (l : List Char) (q : Nat) :
    lineStartsFrom (d :: l) q
      = if d = '\n' then (q + 1) :: lineStartsFrom l (q + 1)
        else lineStartsFrom l (q + 1) := rfl

theorem lsf_append (l1 l2 : List Char) :
    ∀ pos, lineStartsFrom (l1 ++ l2) pos
      = lineStartsFrom l1 pos ++ lineStartsFrom l2 (pos + l1.length) := by
  induction l1 with
  | nil => intro pos; simp [lineStartsFrom]
  | cons c l1 ih =>
    intro pos
    rw [List.cons_append, lsf_cons, lsf_cons, List.length_cons]
    by_cases hc : c = '\n'
    · rw [if_pos hc, if_pos hc, ih (pos + 1), List.cons_append,
        show pos + 1 + l1.length = pos + (l1.length + 1) from by omega]
    · rw [if_neg hc, if_neg hc, ih (pos + 1),
        show pos + 1 + l1.length = pos + (l1.length + 1) from by omega]

theorem lsf_shift (cs : List Char) :
    ∀ pos q, lineStartsFrom cs (pos + q) = (lineStartsFrom cs pos).map (· + q) := by
  induction cs with
  | nil => intro pos q; simp [lineStartsFrom]
  | cons c cs ih =>
    intro pos q
    simp only [lineStartsFrom]
    by_cases hc : c = '\n'
    · rw [if_pos hc, if_pos hc]
      simp only [List.map_cons]
      rw [show pos + q + 1 = (pos + 1) + q from by omega, ih (pos + 1) q]
    · rw [if_neg hc, if_neg hc,
        show pos + q + 1 = (pos + 1) + q from by omega, ih (pos + 1) q]

theorem isHeadingAt_drop (cs : List Char) (b j : Nat) :
    isHeadingAt (cs.drop b) j = isHeadingAt cs (b + j) := by
  unfold isHeadingAt
  rw [List.drop_drop]

theorem filter_map_add (l : List Nat) (b : Nat) (p : Nat → Bool) :
    (l.map (· + b)).filter p = (l.filter (fun x => p (x + b))).map (· + b) := by
  induction l with
  | nil => rfl
  | cons x l ih =>
    simp only [List.map_cons, List.filter_cons]
    by_cases hp : p (x + b)
    · rw [if_pos hp, if_pos hp, List.map_cons, ih]
    · rw [if_neg hp, if_neg hp, ih]

theorem headingStarts_drop (cs : List Char) (b : Nat) (rest : List Nat)
    (h : headingStarts cs = b :: rest) (hb : 0 < b) :
    headingStarts (cs.drop b) = 0 :: rest.map (fun x => x - b)
      ∧ (∀ x ∈ rest, b < x) ∧ b ≤ cs.length := by
  have hbmem : b ∈ headingStarts cs := by rw [h]; exact List.mem_cons_self _ _
  have hbP : isHeadingAt cs b = true := by
    have := (List.mem_filter.mp hbmem).2
    simpa using this
  have hbls : b ∈ lineStarts cs := (List.mem_filter.mp hbmem).1
  have hble : b ≤ cs.length := by
    rcases List.mem_cons.mp hbls with h0 | hmem
    · omega
    · have := lsf_mem cs 0 b hmem; omega
  have htake : (cs.take b).length = b := by
    rw [List.length_take]; omega
  have hlsf : lineStartsFrom cs 0
      = lineStartsFrom (cs.take b) 0 ++ (lineStartsFrom (cs.drop b) 0).map (· + b) := by
    conv_lhs => rw [← List.take_append_drop b cs]
    rw [lsf_append (cs.take b) (cs.drop b) 0, htake, Nat.zero_add]
    congr 1
    have := lsf_shift (cs.drop b) 0 b
    simpa using this
  have hfilter : headingStarts cs
      = (0 :: lineStartsFrom (cs.take b) 0).filter (fun i => isHeadingAt cs i)
        ++ ((lineStartsFrom (cs.drop b) 0).map (· + b)).filter (fun i => isHeadingAt cs i) := by
    unfold headingStarts lineStarts
    rw [hlsf, ← List.cons_append, List.filter_append]
  have happ : ((0 :: lineStartsFrom (cs.take b) 0).filter (fun i => isHeadingAt cs i))
      ++ (((lineStartsFrom (cs.drop b) 0).map (· + b)).filter (fun i => isHeadingAt cs i))
      = b :: rest := by rw [← hfilter, h]
  have hFle : ∀ x ∈ (0 :: lineStartsFrom (cs.take b) 0).filter (fun i => isHeadingAt cs i),
      x ≤ b := by
    intro x hx
    have hx' := (List.mem_filter.mp hx).1
    rcases List.mem_cons.mp hx' with h0 | hmem
    · omega
    · have := lsf_mem (cs.take b) 0 x hmem
      omega
  have hGgt : ∀ x ∈ ((lineStartsFrom (cs.drop b) 0).map (· + b)).filter
      (fun i => isHeadingAt cs i), b < x := by
    intro x hx
    have hx' := (List.mem_filter.mp hx).1
    obtain ⟨y, hy, rfl⟩ := List.mem_map.mp hx'
    have := lsf_mem (cs.drop b) 0 y hy
    omega
  have hFb : (0 :: lineStartsFrom (cs.take b) 0).filter (fun i => isHeadingAt cs i) = [b] := by
    cases hcase : (0 :: lineStartsFrom (cs.take b) 0).filter (fun i => isHeadingAt cs i) with
    | nil =>
      exfalso
      rw [hcase] at happ
      simp only [List.nil_append] at happ
      have hmem : b ∈ ((lineStartsFrom (cs.drop b) 0).map (· + b)).filter
          (fun i => isHeadingAt cs i) := by
        rw [happ]; exact List.mem_cons_self _ _
      have := hGgt b hmem
      omega
    | cons f F =>
      rw [hcase, List.cons_append] at happ
      obtain ⟨hfb, hFG⟩ := List.cons_eq_cons.mp happ
      cases hF2 : F with
      | nil => rw [hfb]
      | cons u F2 =>
        exfalso
        have hpw0 : ((0 :: lineStartsFrom (cs.take b) 0).filter
            (fun i => isHeadingAt cs i)).Pairwise (· < ·) := by
          apply List.Pairwise.filter
          exact List.pairwise_cons.mpr
            ⟨fun x hx => (lsf_mem (cs.take b) 0 x hx).1, lsf_pairwise (cs.take b) 0⟩
        rw [hcase, hF2] at hpw0
        have hfu : f < u := (List.pairwise_cons.mp hpw0).1 u (by simp)
        have humem : u ∈ (0 :: lineStartsFrom (cs.take b) 0).filter
            (fun i => isHeadingAt cs i) := by
          rw [hcase, hF2]; simp
        have hub := hFle u humem
        omega
  have hrest : rest = ((lineStartsFrom (cs.drop b) 0).map (· + b)).filter
      (fun i => isHeadingAt cs i) := by
    rw [hFb, List.singleton_append] at happ
    exact (List.cons_eq_cons.mp happ).2.symm
  have hGmap : ((lineStartsFrom (cs.drop b) 0).map (· + b)).filter (fun i => isHeadingAt cs i)
      = ((lineStartsFrom (cs.drop b) 0).filter
          (fun j => isHeadingAt (cs.drop b) j)).map (· + b) := by
    rw [filter_map_add]
    congr 1
    apply List.filter_congr
    intro x _
    rw [isHeadingAt_drop, Nat.add_comm x b]
  have hmem_rest : ∀ x ∈ rest, b < x := fun x hx => hGgt x (hrest ▸ hx)
  have h0 : isHeadingAt (cs.drop b) 0 = true := by
    rw [isHeadingAt_drop]
    simpa using hbP
  refine ⟨?_, hmem_rest, hble⟩
  unfold headingStarts lineStarts
  rw [List.filter_cons_of_pos h0]
  congr 1
  rw [hrest, hGmap, List.map_map]
  have hcomp : ((fun x => x - b) ∘ fun x => x + b) = id := by
    funext x; simp
  rw [hcomp, List.map_id]

theorem sliceBounds_shift (cs : List Char) (b : Nat) (bounds : List Nat)
    (hall : ∀ x ∈ bounds, b ≤ x) :
    sliceBounds (cs.drop b) (bounds.map (fun x => x - b)) = sliceBounds cs bounds := by
  unfold sliceBounds
  have htail : (bounds.map (fun x => x - b)).tail = bounds.tail.map (fun x => x - b) := by
    cases bounds <;> rfl
  rw [htail, List.zip_map, List.map_map]
  apply List.map_congr_left
  intro ab hab
  obtain ⟨x, y⟩ := ab
  obtain ⟨hx, hy⟩ := List.mem_zip hab
  have h1 : b ≤ x := hall _ hx
  have h2 : b ≤ y := hall _ (List.mem_of_mem_tail hy)
  simp only [Function.comp, Prod.map]
  rw [List.drop_drop]
  rw [show b + (x - b) = x from by omega, show y - b - (x - b) = y - x from by omega]

/-- Claim C10: if the first header match of a document begins at offset
b > 0, chunk_by_header produces exactly the sections of the document with
its first b characters removed: section boundaries start at the first
heading match, so the text before it appears in no section. -/
theorem chunk_by_header_first_heading (md : String) (b : Nat) (rest : List Nat)
    (hhs : headingStarts md.toList = b :: rest) (hb : 0 < b) :
    chunk_by_header md = chunk_by_header (String.mk (md.toList.drop b)) := by
  obtain ⟨hmain, hrest, hble⟩ := headingStarts_drop md.toList b rest hhs hb
  have key : sliceBounds (md.toList.drop b)
      (headingStarts (md.toList.drop b) ++ [(md.toList.drop b).length])
      = sliceBounds md.toList (headingStarts md.toList ++ [md.toList.length]) := by
    rw [hmain, hhs, List.length_drop]
    have hmapped : (0 :: (rest.map (fun x => x - b))) ++ [md.toList.length - b]
        = ((b :: rest) ++ [md.toList.length]).map (fun x => x - b) := by
      simp [Nat.sub_self]
    rw [hmapped]
    apply sliceBounds_shift
    intro x hx
    rcases List.mem_append.mp hx with hx1 | hx2
    · rcases List.mem_cons.mp hx1 with h0 | hxr
      · omega
      · exact le_of_lt (hrest x hxr)
    · simp only [List.mem_singleton] at hx2
      omega
  have htl : (String.mk (md.toList.drop b)).toList = md.toList.drop b := rfl
  show ((sliceBounds md.toList (headingStarts md.toList ++ [md.toList.length])).filter
        (fun l => !l.isEmpty)).map (fun l => (⟨l⟩ : String))
      = ((sliceBounds (String.mk (md.toList.drop b)).toList
            (headingStarts (String.mk (md.toList.drop b)).toList
              ++ [(String.mk (md.toList.drop b)).toList.length])).filter
        (fun l => !l.isEmpty)).map (fun l => (⟨l⟩ : String))
  rw [htl, key]

/-- Witness for chunk_by_header_first_heading: the document
intro\n# Title\nbody, whose first (and only) heading match starts at
offset 6. -/
theorem chunk_by_header_first_heading_witness :
    (headingStarts ("intro\n# Title\nbody" : String).toList = 6 :: [] ∧ 0 < 6)
    ∧ chunk_by_header "intro\n# Title\nbody"
        = chunk_by_header (String.mk (("intro\n# Title\nbody" : String).toList.drop 6)) :=
  ⟨⟨by decide, by decide⟩,
   chunk_by_header_first_heading "intro\n# Title\nbody" 6 [] (by decide) (by decide)⟩

end SitemapChunks

namespace SitemapRecursive

/-- A parsed sitemap XML document as the code inspects it: the root tag
(possibly namespace-qualified) and the findall results used by
fetch_sitemap_urls — the loc texts of .//sitemap children, of .//url
children, and of all loc elements.  An entry is none when the loc element
is missing or has no text. -/
structure XmlDoc where
  tag : String
  sitemapLocs : List (Option String)
  urlLocs : List (Option String)
  allLocs : List (Option String)
deriving DecidableEq

/-- Outcome of one HTTP fetch of a sitemap URL: a network failure (raised
by requests.get / raise_for_status), a body that fails XML parsing, or a
parsed document. -/
inductive FetchOutcome where
  | netError : FetchOutcome
  | unparsed : String → FetchOutcome
  | parsed : XmlDoc → FetchOutcome
deriving DecidableEq

/-- A sitemap graph: the finite association of URLs to fetch outcomes;
URLs outside it behave as network failures. -/
abbrev SitemapEnv := List (String × FetchOutcome)

/-- Result of fetch_sitemap_urls: out urls visited fetched (the returned
list, the final visited set as a list, and the instrumentation log of
URLs actually fetched), a propagated network exception, or fuel
exhaustion. -/
inductive SmResult where
  | out : List String → List String → List String → SmResult
  | netErr : SmResult
  | noFuel : SmResult
deriving DecidableEq

/-- Python str.split(sep) over a character list. -/
def splitSegs (sep : Char) : List Char → List (List Char)
  | [] => [[]]
  | c :: rest =>
    match splitSegs sep rest with
    | [] => [[c]]
    | s :: ss => if c = sep then [] :: s :: ss else (c :: s) :: ss

/-- ASCII lower-casing of one character (Python str.lower on the ASCII
range). -/
def pyLowerChar (c : Char) : Char :=
  if 'A' ≤ c ∧ c ≤ 'Z' then Char.ofNat (c.toNat + 32) else c

/-- root.tag.split(...)[-1].lower() (src/sitemap_page_per_file_recursive.py
line 59): strip a namespace prefix ending in a closing brace and
lower-case the local tag name. -/
def tagLocal (t : String) : String :=
  ⟨((splitSegs '\x7d' t.toList).getLastD []).map pyLowerChar⟩

/-- The loc texts collected from findall results: kept when the loc
element exists and its text is truthy (non-empty), then stripped. -/
def locTexts (l : List (Option String)) : List String :=
  l.filterMap (fun o =>
    match o with
    | some s => if s = "" then none else some (pyStrip s)
    | none => none)

/-- Match the regex remainder \s*(.*?)\s*</loc> (with . not matching a
newline) against cs: scan for the first closing loc tag whose preceding
span is whitespace, then newline-free content, then whitespace; return
the captured content and the remaining input.  acc holds the scanned
span in reverse; one fuel unit per consumed character. -/
def matchLocBodyAux : Nat → List Char → List Char → Option (List Char × List Char)
  | 0, _, _ => none
  | fuel + 1, acc, cs =>
    if ("</loc>".toList).isPrefixOf cs then
      let core := pyTrim acc.reverse
      if core.contains '\n' then
        match cs with
        | [] => none
        | c :: rest => matchLocBodyAux fuel (c :: acc) rest
      else some (core, cs.drop 6)
    else
      match cs with
      | [] => none
      | c :: rest => matchLocBodyAux fuel (c :: acc) rest

/-- Match attempt positioned just after a literal opening loc tag. -/
def matchLocBody (cs : List Char) : Option (List Char × List Char) :=
  matchLocBodyAux (cs.length + 1) [] cs

/-- re.findall over the regex of src/sitemap_page_per_file_recursive.py
line 57: all loc contents found by a left-to-right scan of the decoded
bytes. -/
def regexFindLocsAux : Nat → List Char → List String
  | 0, _ => []
  | fuel + 1, cs =>
    match cs with
    | [] => []
    | _ :: rest =>
      if ("<loc>".toList).isPrefixOf cs then
        match matchLocBody (cs.drop 5) with
        | some (cap, remainder) => (⟨cap⟩ : String) :: regexFindLocsAux fuel remainder
        | none => regexFindLocsAux fuel rest
      else regexFindLocsAux fuel rest

/-- The textual fallback scan for loc pairs. -/
def regexFindLocs (cs : List Char) : List String :=
  regexFindLocsAux (cs.length + 1) cs

/-- The recursion over the loc children of a sitemap index (the for-loop
of src/sitemap_page_per_file_recursive.py lines 63-67), parameterised by
the recursive call; the visited set is threaded through the children and
the page URLs and fetch logs are concatenated in document order.  Any
exception (netErr) aborts the whole computation, as in Python. -/
def fetchKidsWith (f : String → List String → SmResult) :
    List String → List String → SmResult
  | [], visited => .out [] visited []
  | c :: cs, visited =>
    match f c visited with
    | .out us vis fs =>
      match fetchKidsWith f cs vis with
      | .out us2 vis2 fs2 => .out (us ++ us2) vis2 (fs ++ fs2)
      | r => r
    | r => r


/-- Prepend the fetched URL to the fetch log of a successful result
(errors pass through), mirroring that the index branch itself issued one
request before recursing. -/
def tagFetched (url : String) : SmResult → SmResult
  | .out us vis fs => .out us vis (url :: fs)
  | r => r

/-- Resolution of one fetched sitemap document (lines 50-79 of
src/sitemap_page_per_file_recursive.py), parameterised by the recursive
resolver f used for the children of a sitemap index: the XML parse
fallback to the regex scan and the three root-tag cases. -/
def resolveDoc (f : String → List String → SmResult) (url : String)
    (visited : List String) : Option FetchOutcome → SmResult
  | none => .netErr
  | some .netError => .netErr
  | some (.unparsed text) => .out (regexFindLocs text.toList) (url :: visited) [url]
  | some (.parsed doc) =>
    if tagLocal doc.tag = "sitemapindex" then
      tagFetched url (fetchKidsWith f (locTexts doc.sitemapLocs) (url :: visited))
    else if tagLocal doc.tag = "urlset" then
      .out (locTexts doc.urlLocs) (url :: visited) [url]
    else .out (locTexts doc.allLocs) (url :: visited) [url]

/-- fetch_sitemap_urls (src/sitemap_page_per_file_recursive.py lines
31-79) over a sitemap graph: the visited cycle guard, then the fetch and
document resolution.  The fetched log records each URL whose HTTP
request is issued. -/
def fetch_sitemap_urls (env : SitemapEnv) : Nat → String → List String → SmResult
  | 0, _, _ => .noFuel
  | fuel + 1, url, visited =>
    if url ∈ visited then .out [] visited []
    else resolveDoc (fetch_sitemap_urls env fuel) url visited (List.lookup url env)

/-- The distinct URLs of the graph (for the termination measure). -/
def dedupKeys : List String → List String
  | [] => []
  | k :: ks =>
    let r := dedupKeys ks
    if r.contains k then r else k :: r

/-- Number of distinct graph URLs not yet visited: the quantity that
strictly decreases at every recursive expansion. -/
def remaining (env : SitemapEnv) (visited : List String) : Nat :=
  ((dedupKeys (env.map Prod.fst)).filter (fun u => decide (u ∉ visited))).length

theorem mem_dedupKeys (l : List String) (x : String) :
    x ∈ dedupKeys l ↔ x ∈ l := by
  induction l with
  | nil => simp [dedupKeys]
  | cons k ks ih =>
    simp only [dedupKeys]
    by_cases hc : (dedupKeys ks).contains k
    · rw [if_pos hc, ih]
      constructor
      · intro hx; exact List.mem_cons_of_mem k hx
      · intro hx
        rcases List.mem_cons.mp hx with h0 | h1
        · subst h0
          exact ih.mp (List.mem_of_elem_eq_true hc)
        · exact h1
    · rw [if_neg hc]
      simp only [List.mem_cons, ih]

theorem nodup_dedupKeys (l : List String) : (dedupKeys l).Nodup := by
  induction l with
  | nil => simp [dedupKeys]
  | cons k ks ih =>
    simp only [dedupKeys]
    by_cases hc : (dedupKeys ks).contains k
    · rw [if_pos hc]; exact ih
    · rw [if_neg hc]
      refine List.nodup_cons.mpr ⟨?_, ih⟩
      intro hk
      exact hc (List.elem_eq_true_of_mem hk)

theorem lookup_mem_keys (l : List (String × FetchOutcome)) (a : String)
    (b : FetchOutcome) (h : List.lookup a l = some b) : a ∈ l.map Prod.fst := by
  induction l with
  | nil => exact Option.noConfusion h
  | cons p l ih =>
    obtain ⟨k, v⟩ := p
    simp only [List.lookup] at h
    by_cases hk : (a == k) = true
    · simp only [List.map_cons, List.mem_cons]
      exact Or.inl (eq_of_beq hk)
    · rw [Bool.not_eq_true] at hk
      simp only [hk] at h
      simp only [List.map_cons, List.mem_cons]
      exact Or.inr (ih h)

theorem filter_length_mono {α : Type} (l : List α) (p q : α → Bool)
    (h : ∀ x, p x = true → q x = true) :
    (l.filter p).length ≤ (l.filter q).length := by
  induction l with
  | nil => simp
  | cons a l ih =>
    simp only [List.filter_cons]
    by_cases hp : p a = true
    · rw [if_pos hp, if_pos (h a hp)]
      simpa using ih
    · rw [if_neg hp]
      by_cases hq : q a = true
      · rw [if_pos hq]
        simp only [List.length_cons]
        omega
      · rw [if_neg hq]
        exact ih

theorem length_filter_notmem_cons (l : List String) (a : String) (v : List String)
    (hnd : l.Nodup) (ha : a ∈ l) (hav : a ∉ v) :
    (l.filter (fun u => decide (u ∉ a :: v))).length + 1
      = (l.filter (fun u => decide (u ∉ v))).length := by
  induction l with
  | nil => simp at ha
  | cons k l ih =>
    have hnd2 := List.nodup_cons.mp hnd
    rcases List.mem_cons.mp ha with h0 | hal
    · subst h0
      simp only [List.filter_cons]
      have hc1 : decide (a ∉ a :: v) = false := by simp
      have hc2 : decide (a ∉ v) = true := by simp [hav]
      rw [hc1, hc2]
      simp only [Bool.false_eq_true, if_false, if_true, List.length_cons]
      congr 1
      apply congrArg
      apply List.filter_congr
      intro x hx
      have hxa : x ≠ a := fun hh => hnd2.1 (hh ▸ hx)
      simp [List.mem_cons, hxa]
    · have hka : k ≠ a := fun hh => hnd2.1 (hh ▸ hal)
      simp only [List.filter_cons]
      have heq : decide (k ∉ a :: v) = decide (k ∉ v) := by
        simp [List.mem_cons, hka]
      rw [heq]
      by_cases hkv : decide (k ∉ v) = true
      · rw [if_pos hkv, if_pos hkv]
        simp only [List.length_cons]
        rw [← ih hnd2.2 hal]
      · rw [Bool.not_eq_true] at hkv
        rw [hkv]
        simp only [Bool.false_eq_true, if_false]
        exact ih hnd2.2 hal

theorem remaining_cons (env : SitemapEnv) (visited : List String) (url : String)
    (hmem : url ∈ env.map Prod.fst) (hnv : url ∉ visited) :
    remaining env (url :: visited) + 1 = remaining env visited := by
  unfold remaining
  exact length_filter_notmem_cons (dedupKeys (env.map Prod.fst)) url visited
    (nodup_dedupKeys _) ((mem_dedupKeys _ _).mpr hmem) hnv

theorem remaining_mono (env : SitemapEnv) (v1 v2 : List String)
    (h : ∀ x, x ∈ v1 → x ∈ v2) :
    remaining env v2 ≤ remaining env v1 := by
  unfold remaining
  apply filter_length_mono
  intro x hx
  simp only [decide_eq_true_eq] at hx ⊢
  intro hxv1
  exact hx (h x hxv1)

/-- The state invariant of one resolution step: the fetch log is
duplicate-free, disjoint from the incoming visited set, and the outgoing
visited set is exactly the fetch log plus the incoming visited set. -/
def SmInv (visited vis fs : List String) : Prop :=
  fs.Nodup ∧ (∀ x ∈ fs, x ∉ visited) ∧ (∀ x, x ∈ vis ↔ x ∈ fs ∨ x ∈ visited)

theorem smInv_leaf (url : String) (visited : List String) (hv : url ∉ visited) :
    SmInv visited (url :: visited) [url] := by
  refine ⟨by simp, ?_, fun x => by simp [List.mem_cons]⟩
  intro x hx
  simp only [List.mem_singleton] at hx
  subst hx
  exact hv

theorem fetchKidsWith_inv (f : String → List String → SmResult)
    (hf : ∀ url visited us vis fs, f url visited = .out us vis fs → SmInv visited vis fs) :
    ∀ cs visited us vis fs,
      fetchKidsWith f cs visited = .out us vis fs → SmInv visited vis fs := by
  intro cs
  induction cs with
  | nil =>
    intro visited us vis fs h
    simp only [fetchKidsWith] at h
    injection h with h1 h2 h3
    subst h2
    refine ⟨by simp [← h3], by simp [← h3], fun x => by simp [← h3]⟩
  | cons c cs ih =>
    intro visited us vis fs h
    simp only [fetchKidsWith] at h
    cases hf1 : f c visited with
    | out us1 vis1 fs1 =>
      simp only [hf1] at h
      cases hk : fetchKidsWith f cs vis1 with
      | out us2 vis2 fs2 =>
        simp only [hk] at h
        injection h with h1 h2 h3
        subst h2
        have I1 := hf c visited us1 vis1 fs1 hf1
        have I2 := ih vis1 us2 vis2 fs2 hk
        subst h3
        refine ⟨?_, ?_, ?_⟩
        · apply List.Nodup.append I1.1 I2.1
          intro x hx1 hx2
          have hxvis1 : x ∈ vis1 := (I1.2.2 x).mpr (Or.inl hx1)
          exact I2.2.1 x hx2 hxvis1
        · intro x hx
          rcases List.mem_append.mp hx with h1' | h2'
          · exact I1.2.1 x h1'
          · intro hxv
            exact I2.2.1 x h2' ((I1.2.2 x).mpr (Or.inr hxv))
        · intro x
          rw [I2.2.2 x, List.mem_append, I1.2.2 x]
          tauto
      | netErr => simp only [hk] at h; exact SmResult.noConfusion h
      | noFuel => simp only [hk] at h; exact SmResult.noConfusion h
    | netErr => simp only [hf1] at h; exact SmResult.noConfusion h
    | noFuel => simp only [hf1] at h; exact SmResult.noConfusion h

theorem fetch_sitemap_urls_inv (env : SitemapEnv) :
    ∀ fuel url visited us vis fs,
      fetch_sitemap_urls env fuel url visited = .out us vis fs →
        SmInv visited vis fs := by
  intro fuel
  induction fuel with
  | zero => intro url visited us vis fs h; exact SmResult.noConfusion h
  | succ fuel ih =>
    intro url visited us vis fs h
    simp only [fetch_sitemap_urls] at h
    by_cases hv : url ∈ visited
    · rw [if_pos hv] at h
      injection h with h1 h2 h3
      subst h2
      refine ⟨by simp [← h3], by simp [← h3], fun x => by simp [← h3]⟩
    · rw [if_neg hv] at h
      cases hl : List.lookup url env with
      | none =>
        rw [hl] at h
        simp only [resolveDoc] at h
        exact SmResult.noConfusion h
      | some outc =>
        rw [hl] at h
        cases outc with
        | netError =>
          simp only [resolveDoc] at h
          exact SmResult.noConfusion h
        | unparsed text =>
          simp only [resolveDoc] at h
          injection h with h1 h2 h3
          subst h2
          rw [← h3]
          exact smInv_leaf url visited hv
        | parsed doc =>
          simp only [resolveDoc] at h
          by_cases ht : tagLocal doc.tag = "sitemapindex"
          · rw [if_pos ht] at h
            cases hk : fetchKidsWith (fetch_sitemap_urls env fuel)
                (locTexts doc.sitemapLocs) (url :: visited) with
            | out us1 vis1 fs1 =>
              rw [hk] at h
              simp only [tagFetched] at h
              injection h with h1 h2 h3
              subst h2
              have I := fetchKidsWith_inv (fetch_sitemap_urls env fuel)
                (fun u v a b c hh => ih u v a b c hh)
                (locTexts doc.sitemapLocs) (url :: visited) us1 vis1 fs1 hk
              rw [← h3]
              refine ⟨?_, ?_, ?_⟩
              · refine List.nodup_cons.mpr ⟨?_, I.1⟩
                intro hmem
                exact I.2.1 url hmem (List.mem_cons_self url visited)
              · intro x hx
                rcases List.mem_cons.mp hx with h0 | h1'
                · subst h0; exact hv
                · intro hxv
                  exact I.2.1 x h1' (List.mem_cons_of_mem url hxv)
              · intro x
                rw [I.2.2 x]
                simp only [List.mem_cons]
                tauto
            | netErr =>
              rw [hk] at h
              simp only [tagFetched] at h
              exact SmResult.noConfusion h
            | noFuel =>
              rw [hk] at h
              simp only [tagFetched] at h
              exact SmResult.noConfusion h
          · rw [if_neg ht] at h
            by_cases ht2 : tagLocal doc.tag = "urlset"
            · rw [if_pos ht2] at h
              injection h with h1 h2 h3
              subst h2
              rw [← h3]
              exact smInv_leaf url visited hv
            · rw [if_neg ht2] at h
              injection h with h1 h2 h3
              subst h2
              rw [← h3]
              exact smInv_leaf url visited hv

theorem fetchKidsWith_congr (f g : String → List String → SmResult)
    (h : ∀ u v, f u v ≠ .noFuel → g u v = f u v) :
    ∀ cs v, fetchKidsWith f cs v ≠ .noFuel →
      fetchKidsWith g cs v = fetchKidsWith f cs v := by
  intro cs
  induction cs with
  | nil => intro v _; rfl
  | cons c cs ih =>
    intro v hnf
    simp only [fetchKidsWith] at hnf ⊢
    cases hf1 : f c v with
    | out us1 vis1 fs1 =>
      simp only [hf1] at hnf
      have hg : g c v = f c v := h c v (by rw [hf1]; simp)
      simp only [hg, hf1]
      cases hk : fetchKidsWith f cs vis1 with
      | out us2 vis2 fs2 =>
        have hkg := ih vis1 (by rw [hk]; simp)
        simp only [hkg, hk]
      | netErr =>
        have hkg := ih vis1 (by rw [hk]; simp)
        simp only [hkg, hk]
      | noFuel =>
        rw [hk] at hnf
        simp at hnf
    | netErr =>
      have hg : g c v = f c v := h c v (by rw [hf1]; simp)
      simp only [hg, hf1]
    | noFuel =>
      simp only [hf1] at hnf
      simp at hnf

theorem fetch_succ (env : SitemapEnv) (fuel : Nat) (url : String)
    (visited : List String) :
    fetch_sitemap_urls env (fuel + 1) url visited
      = if url ∈ visited then .out [] visited []
        else resolveDoc (fetch_sitemap_urls env fuel) url visited
          (List.lookup url env) := rfl

theorem fetch_stability (env : SitemapEnv) :
    ∀ fuel url visited, fetch_sitemap_urls env fuel url visited ≠ .noFuel →
      fetch_sitemap_urls env (fuel + 1) url visited
        = fetch_sitemap_urls env fuel url visited := by
  intro fuel
  induction fuel with
  | zero => intro url visited h; exact absurd rfl h
  | succ fuel ih =>
    intro url visited h
    rw [fetch_succ env fuel] at h
    rw [fetch_succ env (fuel + 1), fetch_succ env fuel]
    by_cases hv : url ∈ visited
    · rw [if_pos hv, if_pos hv]
    · rw [if_neg hv, if_neg hv]
      rw [if_neg hv] at h
      cases hl : List.lookup url env with
      | none => rfl
      | some outc =>
        rw [hl] at h
        cases outc with
        | netError => rfl
        | unparsed text => rfl
        | parsed doc =>
          simp only [resolveDoc] at h ⊢
          by_cases ht : tagLocal doc.tag = "sitemapindex"
          · rw [if_pos ht] at h ⊢
            have hkids : fetchKidsWith (fetch_sitemap_urls env fuel)
                (locTexts doc.sitemapLocs) (url :: visited) ≠ .noFuel := by
              intro hc
              rw [hc] at h
              simp [tagFetched] at h
            rw [fetchKidsWith_congr (fetch_sitemap_urls env fuel)
              (fetch_sitemap_urls env (fuel + 1))
              (fun u v hnf => ih u v hnf) _ _ hkids]
            rw [if_pos ht]
          · rw [if_neg ht, if_neg ht]

theorem fetchKidsWith_no_noFuel (env : SitemapEnv) (fuel : Nat)
    (hf : ∀ url visited, remaining env visited < fuel →
        fetch_sitemap_urls env fuel url visited ≠ .noFuel) :
    ∀ cs visited, remaining env visited < fuel →
      fetchKidsWith (fetch_sitemap_urls env fuel) cs visited ≠ .noFuel := by
  intro cs
  induction cs with
  | nil => intro visited _; simp [fetchKidsWith]
  | cons c cs ih =>
    intro visited h hcontra
    simp only [fetchKidsWith] at hcontra
    cases hf1 : fetch_sitemap_urls env fuel c visited with
    | out us1 vis1 fs1 =>
      simp only [hf1] at hcontra
      have hsub : remaining env vis1 ≤ remaining env visited := by
        apply remaining_mono
        intro x hx
        exact ((fetch_sitemap_urls_inv env fuel c visited us1 vis1 fs1 hf1).2.2 x).mpr
          (Or.inr hx)
      cases hk : fetchKidsWith (fetch_sitemap_urls env fuel) cs vis1 with
      | out us2 vis2 fs2 =>
        simp only [hk] at hcontra
        exact SmResult.noConfusion hcontra
      | netErr =>
        simp only [hk] at hcontra
        exact SmResult.noConfusion hcontra
      | noFuel => exact absurd hk (ih vis1 (by omega))
    | netErr =>
      simp only [hf1] at hcontra
      exact SmResult.noConfusion hcontra
    | noFuel => exact absurd hf1 (hf c visited h)

theorem fetch_no_noFuel (env : SitemapEnv) :
    ∀ fuel url visited, remaining env visited < fuel →
      fetch_sitemap_urls env fuel url visited ≠ .noFuel := by
  intro fuel
  induction fuel with
  | zero => intro url visited h; omega
  | succ fuel ih =>
    intro url visited h hcontra
    rw [fetch_succ env fuel] at hcontra
    by_cases hv : url ∈ visited
    · rw [if_pos hv] at hcontra
      exact SmResult.noConfusion hcontra
    · rw [if_neg hv] at hcontra
      cases hl : List.lookup url env with
      | none =>
        rw [hl] at hcontra
        simp only [resolveDoc] at hcontra
        exact SmResult.noConfusion hcontra
      | some outc =>
        rw [hl] at hcontra
        cases outc with
        | netError =>
          simp only [resolveDoc] at hcontra
          exact SmResult.noConfusion hcontra
        | unparsed text =>
          simp only [resolveDoc] at hcontra
          exact SmResult.noConfusion hcontra
        | parsed doc =>
          simp only [resolveDoc] at hcontra
          by_cases ht : tagLocal doc.tag = "sitemapindex"
          · rw [if_pos ht] at hcontra
            have hrem : remaining env (url :: visited) < fuel := by
              have hmemk : url ∈ env.map Prod.fst := lookup_mem_keys env url _ hl
              have := remaining_cons env visited url hmemk hv
              omega
            cases hk : fetchKidsWith (fetch_sitemap_urls env fuel)
                (locTexts doc.sitemapLocs) (url :: visited) with
            | out a b c =>
              rw [hk] at hcontra
              simp only [tagFetched] at hcontra
              exact SmResult.noConfusion hcontra
            | netErr =>
              rw [hk] at hcontra
              simp only [tagFetched] at hcontra
              exact SmResult.noConfusion hcontra
            | noFuel =>
              exact absurd hk (fetchKidsWith_no_noFuel env fuel
                (fun u v hh => ih u v hh) _ _ hrem)
          · rw [if_neg ht] at hcontra
            by_cases ht2 : tagLocal doc.tag = "urlset"
            · rw [if_pos ht2] at hcontra
              exact SmResult.noConfusion hcontra
            · rw [if_neg ht2] at hcontra
              exact SmResult.noConfusion hcontra

theorem fetch_ge_stable (env : SitemapEnv) (url : String) (visited : List String) :
    ∀ fuel, remaining env visited < fuel →
      fetch_sitemap_urls env fuel url visited
        = fetch_sitemap_urls env (remaining env visited + 1) url visited := by
  intro fuel
  induction fuel with
  | zero => intro hh; omega
  | succ fuel ih =>
    intro hh
    by_cases heq : remaining env visited < fuel
    · have h1 := ih heq
      have h2 : fetch_sitemap_urls env fuel url visited ≠ .noFuel :=
        fetch_no_noFuel env fuel url visited heq
      rw [fetch_stability env fuel url visited h2, h1]
    · have hfe : remaining env visited + 1 = fuel + 1 := by omega
      rw [hfe]

/-- Claim C4 (amended): the page-URL list returned by fetch_sitemap_urls
is flat but NOT deduplicated; what is deduplicated is the set of sitemap
documents fetched: whenever resolution succeeds, the log of fetched
sitemap URLs contains no duplicates and is disjoint from the initial
visited set, so each sitemap URL is expanded at most once per run. -/
theorem fetch_sitemap_urls_fetched_once (env : SitemapEnv) (fuel : Nat)
    (url : String) (visited us vis fs : List String)
    (h : fetch_sitemap_urls env fuel url visited = .out us vis fs) :
    fs.Nodup ∧ ∀ x ∈ fs, x ∉ visited :=
  ⟨(fetch_sitemap_urls_inv env fuel url visited us vis fs h).1,
   (fetch_sitemap_urls_inv env fuel url visited us vis fs h).2.1⟩

/-- A one-urlset graph whose document lists the same page URL twice. -/
def envDup : SitemapEnv :=
  [("https://ex/s.xml",
    .parsed ⟨"urlset", [], [some "https://a/x", some "https://a/x"], []⟩)]

/-- Claim C4, counterexample: a urlset that lists the same loc twice
yields that page URL twice — the returned list of page URLs is not
deduplicated (visited only guards sitemap fetches, not page entries). -/
theorem fetch_sitemap_urls_duplicate_pages :
    fetch_sitemap_urls envDup 1 "https://ex/s.xml" []
      = .out ["https://a/x", "https://a/x"] ["https://ex/s.xml"] ["https://ex/s.xml"]
    ∧ ¬ (["https://a/x", "https://a/x"] : List String).Nodup := by
  refine ⟨by decide, by decide⟩

/-- An index graph in which two sitemaps both list the same page. -/
def envIdx : SitemapEnv :=
  [("https://ex/root.xml",
    .parsed ⟨"sitemapindex", [some "https://ex/a.xml", some "https://ex/b.xml"], [], []⟩),
   ("https://ex/a.xml", .parsed ⟨"urlset", [], [some "https://p/1"], []⟩),
   ("https://ex/b.xml", .parsed ⟨"urlset", [], [some "https://p/1"], []⟩)]

/-- Witness for fetch_sitemap_urls_fetched_once on envIdx: the page list
repeats https://p/1 but each of the three sitemap documents is fetched
exactly once. -/
theorem fetch_sitemap_urls_fetched_once_witness :
    fetch_sitemap_urls envIdx 2 "https://ex/root.xml" []
      = .out ["https://p/1", "https://p/1"]
          ["https://ex/b.xml", "https://ex/a.xml", "https://ex/root.xml"]
          ["https://ex/root.xml", "https://ex/a.xml", "https://ex/b.xml"]
    ∧ ((["https://ex/root.xml", "https://ex/a.xml", "https://ex/b.xml"] : List String).Nodup
        ∧ ∀ x ∈ (["https://ex/root.xml", "https://ex/a.xml", "https://ex/b.xml"] : List String),
            x ∉ ([] : List String)) :=
  ⟨by decide,
   fetch_sitemap_urls_fetched_once envIdx 2 "https://ex/root.xml" []
     ["https://p/1", "https://p/1"]
     ["https://ex/b.xml", "https://ex/a.xml", "https://ex/root.xml"]
     ["https://ex/root.xml", "https://ex/a.xml", "https://ex/b.xml"] (by decide)⟩

/-- Claim C5: sitemap resolution is cycle-safe.  (a) A call on a URL
already in visited returns the empty list immediately with an empty
fetch log — nothing is fetched.  (b) On success the fetch log is
duplicate-free: each sitemap URL is fetched and expanded at most once
per run.  (c) Resolution terminates on every graph, cyclic ones
included: as soon as the fuel exceeds the number of distinct unvisited
graph URLs, the result no longer depends on the fuel and is not the
fuel-exhaustion marker. -/
theorem fetch_sitemap_urls_cycle_safe (env : SitemapEnv) :
    (∀ fuel url visited, url ∈ visited →
        fetch_sitemap_urls env (fuel + 1) url visited = .out [] visited [])
    ∧ (∀ fuel url visited us vis fs,
        fetch_sitemap_urls env fuel url visited = .out us vis fs → fs.Nodup)
    ∧ (∀ fuel url visited, remaining env visited < fuel →
        fetch_sitemap_urls env fuel url visited
          = fetch_sitemap_urls env (remaining env visited + 1) url visited
        ∧ fetch_sitemap_urls env fuel url visited ≠ .noFuel) :=
  ⟨fun fuel url visited hv => by rw [fetch_succ env fuel, if_pos hv],
   fun fuel url visited us vis fs h =>
     (fetch_sitemap_urls_inv env fuel url visited us vis fs h).1,
   fun fuel url visited h =>
     ⟨fetch_ge_stable env url visited fuel h, fetch_no_noFuel env fuel url visited h⟩⟩

/-- A two-node sitemap-index cycle: a lists b, b lists a. -/
def envCyc : SitemapEnv :=
  [("https://ex/a.xml", .parsed ⟨"sitemapindex", [some "https://ex/b.xml"], [], []⟩),
   ("https://ex/b.xml", .parsed ⟨"sitemapindex", [some "https://ex/a.xml"], [], []⟩)]

/-- Witness for fetch_sitemap_urls_cycle_safe on the cyclic graph envCyc:
the visited short-circuit and the fuel-independence of the result. -/
theorem fetch_sitemap_urls_cycle_safe_witness :
    ("https://ex/a.xml" ∈ ["https://ex/a.xml"]
      ∧ fetch_sitemap_urls envCyc 1 "https://ex/a.xml" ["https://ex/a.xml"]
          = .out [] ["https://ex/a.xml"] [])
    ∧ (remaining envCyc [] < 5
      ∧ fetch_sitemap_urls envCyc 5 "https://ex/a.xml" []
          = fetch_sitemap_urls envCyc (remaining envCyc [] + 1) "https://ex/a.xml" []
      ∧ fetch_sitemap_urls envCyc 5 "https://ex/a.xml" [] ≠ .noFuel) :=
  ⟨⟨by decide,
    (fetch_sitemap_urls_cycle_safe envCyc).1 0 "https://ex/a.xml"
      ["https://ex/a.xml"] (by decide)⟩,
   ⟨by decide,
    (fetch_sitemap_urls_cycle_safe envCyc).2.2 5 "https://ex/a.xml" [] (by decide)⟩⟩

/-- A response body that is not well-formed XML but contains a literal
loc pair. -/
def brokenSitemap : String := "<urlset><<\n<loc>https://a/x</loc>"

/-- Claim C7: when the fetched body fails XML parsing, resolution does
not raise: it returns exactly the loc contents found by the textual
regex scan of the decoded bytes (and the URL counts as fetched); on the
concrete broken document containing a literal loc pair for https://a/x
the scan recovers exactly that URL.  Network failures are the only
errors propagated (they surface as netErr). -/
theorem fetch_sitemap_urls_regex_fallback (env : SitemapEnv) :
    (∀ fuel url visited text, url ∉ visited →
        List.lookup url env = some (.unparsed text) →
        fetch_sitemap_urls env (fuel + 1) url visited
          = .out (regexFindLocs text.toList) (url :: visited) [url])
    ∧ regexFindLocs brokenSitemap.toList = ["https://a/x"] := by
  constructor
  · intro fuel url visited text hv hl
    rw [fetch_succ env fuel, if_neg hv, hl]
    rfl
  · decide

/-- A graph whose only document is the malformed body. -/
def envBroken : SitemapEnv := [("https://ex/s.xml", .unparsed brokenSitemap)]

/-- Witness for fetch_sitemap_urls_regex_fallback on envBroken. -/
theorem fetch_sitemap_urls_regex_fallback_witness :
    ("https://ex/s.xml" ∉ ([] : List String)
      ∧ List.lookup "https://ex/s.xml" envBroken = some (.unparsed brokenSitemap))
    ∧ fetch_sitemap_urls envBroken 1 "https://ex/s.xml" []
        = .out (regexFindLocs brokenSitemap.toList)
            ["https://ex/s.xml"] ["https://ex/s.xml"] :=
  ⟨⟨by decide, by decide⟩,
   (fetch_sitemap_urls_regex_fallback envBroken).1 0 "https://ex/s.xml" []
     brokenSitemap (by decide) (by decide)⟩

end SitemapRecursive

namespace PageFetch

/-- The names bound at module level by the import statements of
src/sitemap_page_per_file_recursive.py (lines 1-11). -/
def importedNames : List String :=
  ["os", "json", "re", "sys", "subprocess", "asyncio", "requests",
   "html2text", "ET", "urlparse", "AsyncWebCrawler", "BrowserConfig",
   "CrawlerRunConfig"]

/-- Whether the name contextlib, referenced inside the dynamic branch of
fetch_markdown (line 173), resolves at module level.  It does not: the
module never imports contextlib, so evaluating the with-statement raises
NameError before the crawler runs. -/
def contextlibDefined : Bool := importedNames.contains "contextlib"

/-- Outcome of the dynamic (headless browser) strategy for a URL: the
crawl either raises or yields a result with a success flag and a
markdown text (empty models a falsy markdown). -/
inductive DynOutcome where
  | raises : DynOutcome
  | result : Bool → String → DynOutcome
deriving DecidableEq

/-- Outcome of the static strategy: requests.get + raise_for_status
either raises (timeout, non-2xx) or yields the response HTML. -/
inductive StaticOutcome where
  | httpError : StaticOutcome
  | ok : String → StaticOutcome
deriving DecidableEq

/-- The dynamic branch of fetch_markdown (lines 170-180): the whole try
block — name resolution of contextlib, the crawl, and the
success/non-empty check — under except Exception: pass.  none means the
branch produced nothing and the static fallback runs. -/
def tryDynamic (dyn : DynOutcome) : Option String :=
  if contextlibDefined then
    match dyn with
    | .raises => none
    | .result success markdown =>
      if success && !markdown.isEmpty then some markdown else none
  else none

/-- fetch_markdown (src/sitemap_page_per_file_recursive.py lines
158-190): dynamic scrape with every error swallowed, then the static
fallback whose html2text conversion is the abstract conv; a static HTTP
failure is the only error surfaced. -/
def fetch_markdown (dyn : DynOutcome) (static : StaticOutcome)
    (conv : String → String) : Except Unit String :=
  match tryDynamic dyn with
  | some md => .ok md
  | none =>
    match static with
    | .httpError => .error ()
    | .ok html => .ok (conv html)

/-- Claim C9: the dynamic branch of fetch_markdown in the recursive
variant always raises — contextlib is referenced but never imported, so
tryDynamic never yields content regardless of what the crawler would
have returned — hence every successful call returns the html2text
conversion of the static GET response, and the call fails exactly when
the static GET fails. -/
theorem fetch_markdown_static_only :
    (∀ dyn, tryDynamic dyn = none)
    ∧ (∀ dyn conv html,
        fetch_markdown dyn (.ok html) conv = .ok (conv html))
    ∧ (∀ dyn conv, fetch_markdown dyn .httpError conv = .error ()) := by
  refine ⟨fun dyn => rfl, fun dyn conv html => rfl, fun dyn conv => rfl⟩

/-- Claim C6: if the dynamic strategy raises, or yields an unsuccessful
or empty result, while the static strategy succeeds, fetch_markdown
returns the static strategy's converted text and surfaces no error from
the dynamic strategy. -/
theorem fetch_markdown_dynamic_fallback (dyn : DynOutcome) (html : String)
    (conv : String → String)
    (hdyn : dyn = .raises
      ∨ (∃ md, dyn = .result false md)
      ∨ (∃ s, dyn = .result s "")) :
    fetch_markdown dyn (.ok html) conv = .ok (conv html) := rfl

/-- Witness for fetch_markdown_dynamic_fallback: a raising dynamic
strategy and a static page converting to itself. -/
theorem fetch_markdown_dynamic_fallback_witness :
    (DynOutcome.raises = DynOutcome.raises
      ∨ (∃ md, DynOutcome.raises = DynOutcome.result false md)
      ∨ (∃ s, DynOutcome.raises = DynOutcome.result s ""))
    ∧ fetch_markdown DynOutcome.raises (.ok "<p>hi</p>") (fun s => s)
        = .ok "<p>hi</p>" :=
  ⟨Or.inl rfl,
   fetch_markdown_dynamic_fallback DynOutcome.raises "<p>hi</p>" (fun s => s)
     (Or.inl rfl)⟩

end PageFetch
